import Mathlib

/-!
Verification of the `cxx-mangle` crate (file `src/lib.rs`): an Itanium C++
ABI name mangler.  Rust `String`s are modelled as `List Char`; `String::len`
(the UTF-8 byte length) is modelled by summing `Char.utf8Size` over the
characters.  The Rust enum `Type` is modelled as `Ty` (the identifier `Type`
is reserved in Lean); all other source names are kept.
-/

set_option autoImplicit false

/-- Model of Rust `Type` (src/lib.rs): the non-exhaustive set of parameter
types, 19 variants, declared in source order. -/
inductive Ty where
  | Char
  | SChar
  | Double
  | Float
  | Float128
  | UChar
  | Int
  | UInt
  | Long
  | ULong
  | Int128
  | UInt128
  | Short
  | UShort
  | Void
  | WChar
  | LLong
  | ULLong
  | Ellipsis
  deriving DecidableEq, Repr, Fintype

/-- The per-type encoding letter, transcribed from the `match *i` table inside
`Scope::mangle` (src/lib.rs lines 142-167), in the source's branch order. -/
def tyLetter : Ty → Char
  | .SChar => 'a'
  | .Double => 'd'
  | .Float => 'f'
  | .Float128 => 'g'
  | .UChar => 'h'
  | .Int => 'i'
  | .UInt => 'j'
  | .Long => 'l'
  | .ULong => 'm'
  | .Int128 => 'n'
  | .UInt128 => 'o'
  | .Short => 's'
  | .UShort => 't'
  | .Void => 'v'
  | .WChar => 'w'
  | .LLong => 'x'
  | .ULLong => 'y'
  | .Ellipsis => 'z'
  | .Char => 'c'

/-- Model of Rust `String::len`: the UTF-8 byte length of the string. -/
def strLen (s : List Char) : Nat :=
  (s.map Char.utf8Size).sum

/-- The ASCII digit character for a single decimal digit `d < 10`. -/
def decChar (d : Nat) : Char :=
  Char.ofNat (48 + d)

/-- Fuel-driven decimal formatter: digits of `n` in order, provided
`n < fuel`.  Models the rendering done by `write!(l, "{}", st.len())`. -/
def decDigitsAux : Nat → Nat → List Char
  | 0, _ => []
  | fuel + 1, n =>
    if n < 10 then [decChar n]
    else decDigitsAux fuel (n / 10) ++ [decChar (n % 10)]

/-- Decimal representation of `n` (no leading zeros, at least one digit),
modelling Rust's `Display` formatting of `usize`. -/
def decDigits (n : Nat) : List Char :=
  decDigitsAux (n + 1) n

/-- Model of `n.contains("::")` (src/lib.rs line 113): does the character
list contain two adjacent colons? -/
def containsSep : List Char → Bool
  | ':' :: ':' :: _ => true
  | _ :: rest => containsSep rest
  | [] => false

/-- Model of `n.split("::")` (src/lib.rs line 115): left-to-right split on
every non-overlapping occurrence of `::`, keeping empty segments.  `acc`
holds the characters of the current segment in reverse. -/
def splitSepAux : List Char → List Char → List (List Char)
  | [], acc => [acc.reverse]
  | ':' :: ':' :: rest, acc => acc.reverse :: splitSepAux rest []
  | c :: rest, acc => splitSepAux rest (c :: acc)

/-- Model of Rust `Scope` (src/lib.rs lines 106-110). -/
inductive Scope where
  | Unscoped (s : List Char)
  | Nested (segs : List (List Char))
  deriving DecidableEq, Repr

/-- Model of `Scope::new` (src/lib.rs lines 112-120). -/
def Scope.new (n : List Char) : Scope :=
  if containsSep n then .Nested (splitSepAux n []) else .Unscoped n

/-- Model of `Scope::mangle` (src/lib.rs lines 122-169): `_Z`, then the
length-prefixed name (wrapped in `N`…`E` for the nested form), then one
letter per parameter. -/
def Scope.mangle (sc : Scope) (t : List Ty) : List Char :=
  let s := ['_', 'Z']
  let s :=
    match sc with
    | .Unscoped st => s ++ decDigits (strLen st) ++ st
    | .Nested b =>
        (b.foldl (fun acc i => acc ++ decDigits (strLen i) ++ i) (s ++ ['N'])) ++ ['E']
  s ++ t.map tyLetter

/-- Model of Rust `Func` (src/lib.rs lines 172-176). -/
structure Func where
  scope : Scope
  params : List Ty
  deriving DecidableEq, Repr

/-- Model of `Func::new` (src/lib.rs lines 179-190). -/
def Func.new (name : List Char) (params : List Ty) : Func :=
  { scope := Scope.new name, params := params }

/-- Model of `Func::mangle` (src/lib.rs lines 192-194). -/
def Func.mangle (f : Func) : List Char :=
  f.scope.mangle f.params

/-! ### The crate's own unit tests, replayed against the embedding -/

theorem crate_test_mangle_unscoped :
    (Func.new "func".data [Ty.Void]).mangle = "_Z4funcv".data
    ∧ (Func.new "func".data [Ty.Int]).mangle = "_Z4funci".data := by
  decide

theorem crate_test_mangle_nested :
    (Func.new "myNamespace::inner::func".data [Ty.Int, Ty.Double, Ty.Ellipsis]).mangle
      = "_ZN11myNamespace5inner4funcEidz".data
    ∧ (Func.new "hello::world".data [Ty.Void]).mangle = "_ZN5hello5worldEv".data := by
  decide

/-! ### Lemmas about the decimal formatter -/

theorem decDigitsAux_ne_nil (fuel n : Nat) : decDigitsAux (fuel + 1) n ≠ [] := by
  simp only [decDigitsAux]
  split
  · simp
  · simp

theorem decChar_isDigit (d : Nat) (h : d < 10) : (decChar d).isDigit = true := by
  interval_cases d <;> decide

theorem decDigitsAux_isDigit (fuel : Nat) :
    ∀ (n : Nat) (c : Char), c ∈ decDigitsAux fuel n → c.isDigit = true := by
  induction fuel with
  | zero => intro n c hc; simp [decDigitsAux] at hc
  | succ f ih =>
      intro n c hc
      simp only [decDigitsAux] at hc
      split at hc
      · next h =>
          simp at hc
          subst hc
          exact decChar_isDigit n h
      · next h =>
          rw [List.mem_append] at hc
          rcases hc with hc | hc
          · exact ih _ _ hc
          · simp at hc
            subst hc
            exact decChar_isDigit _ (Nat.mod_lt _ (by norm_num))

theorem decDigitsAux_head (fuel : Nat) :
    ∀ (n : Nat), n < fuel → ∀ c,
      (decDigitsAux fuel n).head? = some c → c = '0' → n = 0 := by
  induction fuel with
  | zero => intro n hn; omega
  | succ f ih =>
      intro n hn c hc h0
      subst h0
      simp only [decDigitsAux] at hc
      split at hc
      · next h =>
          simp at hc
          revert hc
          interval_cases n <;> decide
      · next h =>
          push_neg at h
          have hf : n / 10 < f := by omega
          have hne : decDigitsAux f (n / 10) ≠ [] := by
            cases f with
            | zero => omega
            | succ f2 => exact decDigitsAux_ne_nil f2 (n / 10)
          rw [List.head?_append_of_ne_nil _ hne] at hc
          have := ih (n / 10) hf _ hc rfl
          omega

theorem decDigits_ne_nil (n : Nat) : decDigits n ≠ [] :=
  decDigitsAux_ne_nil n n

theorem decDigits_isDigit (n : Nat) (c : Char) (hc : c ∈ decDigits n) :
    c.isDigit = true :=
  decDigitsAux_isDigit (n + 1) n c hc

theorem decDigits_head (n : Nat) (c : Char) (hc : (decDigits n).head? = some c)
    (h0 : c = '0') : n = 0 :=
  decDigitsAux_head (n + 1) n (Nat.lt_succ_self n) c hc h0

/-! ### Lemmas about the separator split -/

theorem splitSepAux_of_not_sep (name : List Char) (h : containsSep name = false) :
    ∀ acc, splitSepAux name acc = [acc.reverse ++ name] := by
  induction name using containsSep.induct with
  | case1 rest => simp [containsSep] at h
  | case2 c rest hne ih =>
      intro acc
      rw [containsSep.eq_2 _ _ hne] at h
      rw [splitSepAux.eq_3 _ _ _ hne, ih h]
      simp
  | case3 => intro acc; simp [splitSepAux]

theorem splitSepAux_ne_nil (name : List Char) :
    ∀ acc, splitSepAux name acc ≠ [] := by
  induction name using containsSep.induct with
  | case1 rest => intro acc; simp [splitSepAux]
  | case2 c rest hne ih =>
      intro acc
      rw [splitSepAux.eq_3 _ _ _ hne]
      exact ih (c :: acc)
  | case3 => intro acc; simp [splitSepAux]

theorem splitSepAux_len_two (name : List Char) (h : containsSep name = true) :
    ∀ acc, 2 ≤ (splitSepAux name acc).length := by
  induction name using containsSep.induct with
  | case1 rest =>
      intro acc
      have h1 : splitSepAux rest [] ≠ [] := splitSepAux_ne_nil rest []
      have h2 : 0 < (splitSepAux rest []).length := List.length_pos.mpr h1
      simp [splitSepAux]
      omega
  | case2 c rest hne ih =>
      intro acc
      rw [containsSep.eq_2 _ _ hne] at h
      rw [splitSepAux.eq_3 _ _ _ hne]
      exact ih h (c :: acc)
  | case3 => simp [containsSep] at h

theorem intercalate_cons_of_ne_nil (sep x : List Char) (l : List (List Char))
    (h : l ≠ []) :
    List.intercalate sep (x :: l) = x ++ sep ++ List.intercalate sep l := by
  cases l with
  | nil => exact absurd rfl h
  | cons y tl =>
      simp [List.intercalate, List.intersperse_cons_cons, List.append_assoc]

theorem intercalate_splitSepAux (name acc : List Char) :
    List.intercalate [':', ':'] (splitSepAux name acc) = acc.reverse ++ name := by
  induction name, acc using splitSepAux.induct with
  | case1 acc => simp [splitSepAux, List.intercalate]
  | case2 rest acc ih =>
      rw [splitSepAux.eq_2]
      rw [intercalate_cons_of_ne_nil _ _ _ (splitSepAux_ne_nil rest [])]
      rw [ih]
      simp
  | case3 c rest acc hne ih =>
      rw [splitSepAux.eq_3 _ _ _ hne, ih]
      simp

theorem intercalate_split (name : List Char) :
    List.intercalate [':', ':'] (splitSepAux name []) = name := by
  simpa using intercalate_splitSepAux name []

/-! ### Shape lemmas for `Scope.new` and the mangled output -/

theorem scope_new_of_sep (name : List Char) (h : containsSep name = true) :
    Scope.new name = .Nested (splitSepAux name []) := by
  simp [Scope.new, h]

theorem scope_new_of_not_sep (name : List Char) (h : containsSep name = false) :
    Scope.new name = .Unscoped name := by
  simp [Scope.new, h]

theorem foldl_emit (b : List (List Char)) (init : List Char) :
    b.foldl (fun acc i => acc ++ decDigits (strLen i) ++ i) init
      = init ++ (b.map (fun i => decDigits (strLen i) ++ i)).flatten := by
  induction b generalizing init with
  | nil => simp
  | cons hd tl ih =>
      rw [List.foldl_cons, ih]
      simp [List.append_assoc]

theorem scope_mangle_unscoped (st : List Char) (t : List Ty) :
    Scope.mangle (.Unscoped st) t
      = ['_', 'Z'] ++ decDigits (strLen st) ++ st ++ t.map tyLetter := by
  simp [Scope.mangle, List.append_assoc]

theorem scope_mangle_nested (b : List (List Char)) (t : List Ty) :
    Scope.mangle (.Nested b) t
      = ['_', 'Z', 'N'] ++ (b.map (fun i => decDigits (strLen i) ++ i)).flatten
          ++ ['E'] ++ t.map tyLetter := by
  show (b.foldl (fun acc i => acc ++ decDigits (strLen i) ++ i) (['_', 'Z'] ++ ['N']))
        ++ ['E'] ++ t.map tyLetter = _
  rw [foldl_emit]
  simp [List.append_assoc]

theorem mangle_unscoped_shape (name : List Char) (params : List Ty)
    (h : containsSep name = false) :
    (Func.new name params).mangle
      = ['_', 'Z'] ++ decDigits (strLen name) ++ name ++ params.map tyLetter := by
  show Scope.mangle (Scope.new name) params = _
  rw [scope_new_of_not_sep name h, scope_mangle_unscoped]

theorem mangle_nested_shape (name : List Char) (params : List Ty)
    (h : containsSep name = true) :
    (Func.new name params).mangle
      = ['_', 'Z', 'N']
          ++ ((splitSepAux name []).map (fun i => decDigits (strLen i) ++ i)).flatten
          ++ ['E'] ++ params.map tyLetter := by
  show Scope.mangle (Scope.new name) params = _
  rw [scope_new_of_sep name h, scope_mangle_nested]

/-! ### Character-set and byte-length helpers -/

/-- The output alphabet named by the spec: `{_, Z, N, E, 0-9, A-Z, a-z}`,
i.e. ASCII alphanumerics plus underscore (`Z`, `N`, `E` are letters). -/
def isMangleChar (c : Char) : Bool :=
  c.isAlphanum || c == '_'

theorem isMangleChar_of_isDigit (c : Char) (h : c.isDigit = true) :
    isMangleChar c = true := by
  simp [isMangleChar, Char.isAlphanum, h]

theorem tyLetter_isMangleChar (t : Ty) : isMangleChar (tyLetter t) = true := by
  cases t <;> decide

theorem strLen_cons (c : Char) (l : List Char) :
    strLen (c :: l) = c.utf8Size + strLen l := by
  simp [strLen]

theorem length_le_strLen (l : List Char) : l.length ≤ strLen l := by
  induction l with
  | nil => simp [strLen]
  | cons c rest ih =>
      have hpos := Char.utf8Size_pos c
      rw [strLen_cons, List.length_cons]
      omega

theorem length_lt_strLen (l : List Char) (h : ∃ c ∈ l, 1 < c.utf8Size) :
    l.length < strLen l := by
  induction l with
  | nil => simp at h
  | cons c rest ih =>
      rw [strLen_cons, List.length_cons]
      rcases h with ⟨d, hd, hsize⟩
      rcases List.mem_cons.mp hd with rfl | hmem
      · have h2 := length_le_strLen rest
        omega
      · have h2 := ih ⟨d, hmem, hsize⟩
        have hpos := Char.utf8Size_pos c
        omega

/-! ### Claim theorems -/

/-- Claim C1: for every name containing `::` and every parameter list,
`Func.mangle` returns `_Z` + `N` + (for each `::`-component, in order, its
decimal length then its text, with no separators) + `E` + one encoding
letter per parameter in input order; there is exactly one length-prefixed
block per `::`-component. -/
theorem c1_nested_output (name : List Char) (params : List Ty)
    (h : containsSep name = true) :
    (Func.new name params).mangle
      = ['_', 'Z', 'N']
          ++ ((splitSepAux name []).map (fun i => decDigits (strLen i) ++ i)).flatten
          ++ ['E'] ++ params.map tyLetter
    ∧ ((splitSepAux name []).map (fun i => decDigits (strLen i) ++ i)).length
        = (splitSepAux name []).length := by
  refine ⟨mangle_nested_shape name params h, ?_⟩
  simp

theorem c1_nested_output_witness :
    containsSep "a::b".data = true
    ∧ ((Func.new "a::b".data [Ty.Int, Ty.Double]).mangle
        = ['_', 'Z', 'N']
            ++ ((splitSepAux "a::b".data []).map (fun i => decDigits (strLen i) ++ i)).flatten
            ++ ['E'] ++ [Ty.Int, Ty.Double].map tyLetter
      ∧ ((splitSepAux "a::b".data []).map (fun i => decDigits (strLen i) ++ i)).length
          = (splitSepAux "a::b".data []).length) :=
  ⟨by decide, c1_nested_output "a::b".data [Ty.Int, Ty.Double] (by decide)⟩

/-- Claim C2: for every name containing no `::` and every parameter list,
`Func.mangle` returns `_Z` + decimal length of the name (at least one digit,
no leading zeros) + the name verbatim + one letter per parameter in input
order; with single parameter `Void` the result ends in `v`, and the name
`func` yields the prefix `_Z4func`. -/
theorem c2_unscoped_output (name : List Char) (params : List Ty)
    (h : containsSep name = false) :
    (Func.new name params).mangle
      = ['_', 'Z'] ++ decDigits (strLen name) ++ name ++ params.map tyLetter
    ∧ decDigits (strLen name) ≠ []
    ∧ (∀ c, (decDigits (strLen name)).head? = some c → c = '0' → strLen name = 0)
    ∧ (Func.new name [Ty.Void]).mangle
        = ['_', 'Z'] ++ decDigits (strLen name) ++ name ++ ['v']
    ∧ (Func.new "func".data params).mangle = "_Z4func".data ++ params.map tyLetter := by
  refine ⟨mangle_unscoped_shape name params h, decDigits_ne_nil _,
    fun c hc h0 => decDigits_head _ c hc h0, mangle_unscoped_shape name [Ty.Void] h, ?_⟩
  have h5 := mangle_unscoped_shape "func".data params (by decide)
  have hp : ['_', 'Z'] ++ decDigits (strLen "func".data) ++ "func".data
      = "_Z4func".data := by decide
  rw [h5, hp]

theorem c2_unscoped_output_witness :
    containsSep "func".data = false
    ∧ ((Func.new "func".data [Ty.Void]).mangle
        = ['_', 'Z'] ++ decDigits (strLen "func".data) ++ "func".data
            ++ [Ty.Void].map tyLetter
      ∧ decDigits (strLen "func".data) ≠ []
      ∧ (∀ c, (decDigits (strLen "func".data)).head? = some c → c = '0'
          → strLen "func".data = 0)
      ∧ (Func.new "func".data [Ty.Void]).mangle
          = ['_', 'Z'] ++ decDigits (strLen "func".data) ++ "func".data ++ ['v']
      ∧ (Func.new "func".data [Ty.Void]).mangle
          = "_Z4func".data ++ [Ty.Void].map tyLetter) :=
  ⟨by decide, c2_unscoped_output "func".data [Ty.Void] (by decide)⟩

/-- Claim C3: `Scope.new` yields `Unscoped` with the name unchanged when the
name has no `::`, and otherwise yields `Nested` holding the left-to-right
split on every `::` occurrence, which then has at least two segments. -/
theorem c3_scope_construction (name : List Char) :
    (containsSep name = false → Scope.new name = Scope.Unscoped name)
    ∧ (containsSep name = true →
        Scope.new name = Scope.Nested (splitSepAux name [])
        ∧ 2 ≤ (splitSepAux name []).length) :=
  ⟨fun h => scope_new_of_not_sep name h,
   fun h => ⟨scope_new_of_sep name h, splitSepAux_len_two name h []⟩⟩

theorem c3_scope_construction_witness :
    (containsSep "plain".data = false
      ∧ Scope.new "plain".data = Scope.Unscoped "plain".data)
    ∧ (containsSep "a::b".data = true
      ∧ Scope.new "a::b".data = Scope.Nested (splitSepAux "a::b".data [])
      ∧ 2 ≤ (splitSepAux "a::b".data []).length) :=
  ⟨⟨by decide, (c3_scope_construction "plain".data).1 (by decide)⟩,
   ⟨by decide, (c3_scope_construction "a::b".data).2 (by decide)⟩⟩

/-- Claim C4: the type-to-letter mapping is total over the 19 declared
variants of `Ty` (it is a total Lean function on a type of cardinality 19,
with no error path) and injective: no two variants share a letter. -/
theorem c4_letter_table_total_injective :
    Fintype.card Ty = 19 ∧ Function.Injective tyLetter := by
  constructor
  · decide
  · decide

/-- Claim C5, counterexample: the claim quantifies over every name string,
but the name `!` yields the output `_Z1!`, whose character `!` is outside
`{_, Z, N, E, 0-9, A-Z, a-z}`. -/
theorem c5_output_charset_counterexample :
    ¬ (∀ c ∈ (Func.new "!".data []).mangle, isMangleChar c = true) := by
  decide

/-- Claim C5, amended: for every descriptor whose name splits on `::` into
components containing only characters from `{_, 0-9, A-Z, a-z}`, every
character of the mangled output is drawn from `{_, Z, N, E, 0-9, A-Z, a-z}`. -/
theorem c5_output_charset (name : List Char) (params : List Ty)
    (h : ∀ seg ∈ splitSepAux name [], ∀ c ∈ seg, isMangleChar c = true) :
    ∀ c ∈ (Func.new name params).mangle, isMangleChar c = true := by
  intro c hc
  cases hsep : containsSep name with
  | false =>
      rw [mangle_unscoped_shape name params hsep] at hc
      have hname : ∀ d ∈ name, isMangleChar d = true := by
        intro d hd
        exact h name (by rw [splitSepAux_of_not_sep name hsep []]; simp) d hd
      simp only [List.append_assoc, List.mem_append] at hc
      rcases hc with hc | hc | hc | hc
      · simp only [List.mem_cons, List.not_mem_nil, or_false] at hc
        rcases hc with rfl | rfl <;> decide
      · exact isMangleChar_of_isDigit c (decDigits_isDigit _ c hc)
      · exact hname c hc
      · rcases List.mem_map.mp hc with ⟨t, _, rfl⟩
        exact tyLetter_isMangleChar t
  | true =>
      rw [(mangle_nested_shape name params hsep)] at hc
      simp only [List.append_assoc, List.mem_append] at hc
      rcases hc with hc | hc | hc | hc
      · simp only [List.mem_cons, List.not_mem_nil, or_false] at hc
        rcases hc with rfl | rfl | rfl <;> decide
      · rcases List.mem_flatten.mp hc with ⟨piece, hpiece, hcp⟩
        rcases List.mem_map.mp hpiece with ⟨seg, hseg, rfl⟩
        rcases List.mem_append.mp hcp with hcd | hcs
        · exact isMangleChar_of_isDigit c (decDigits_isDigit _ c hcd)
        · exact h seg hseg c hcs
      · simp only [List.mem_cons, List.not_mem_nil, or_false] at hc
        subst hc
        decide
      · rcases List.mem_map.mp hc with ⟨t, _, rfl⟩
        exact tyLetter_isMangleChar t

theorem c5_output_charset_witness :
    (∀ seg ∈ splitSepAux "ab::cd".data [], ∀ c ∈ seg, isMangleChar c = true)
    ∧ (∀ c ∈ (Func.new "ab::cd".data [Ty.Int]).mangle, isMangleChar c = true) :=
  ⟨by decide, c5_output_charset "ab::cd".data [Ty.Int] (by decide)⟩

/-- Claim C6: for every name, mangling with an empty parameter list returns
exactly the mangled prefix: the output for any parameter list is that prefix
followed by the parameter letters, so no trailing letters (in particular no
inferred `v` for `Void`) appear when the list is empty. -/
theorem c6_empty_params (name : List Char) (params : List Ty) :
    (Func.new name []).mangle ++ params.map tyLetter
      = (Func.new name params).mangle := by
  cases hsep : containsSep name with
  | false =>
      rw [mangle_unscoped_shape name [] hsep, mangle_unscoped_shape name params hsep]
      simp
  | true =>
      rw [mangle_nested_shape name [] hsep, mangle_nested_shape name params hsep]
      simp

/-- Claim C7: mangling is deterministic and side-effect-free: the same
descriptor mangles to the same output on repeated calls, the descriptor (a
pure value in this embedding) is not mutated, and two descriptors built from
identical name and parameter inputs mangle to identical strings. -/
theorem c7_deterministic (f : Func) (n1 n2 : List Char) (p1 p2 : List Ty)
    (h1 : n1 = n2) (h2 : p1 = p2) :
    f.mangle = f.mangle
    ∧ Func.new n1 p1 = Func.new n2 p2
    ∧ (Func.new n1 p1).mangle = (Func.new n2 p2).mangle := by
  subst h1
  subst h2
  exact ⟨rfl, rfl, rfl⟩

theorem c7_deterministic_witness :
    "a::b".data = "a::b".data
    ∧ [Ty.Int] = [Ty.Int]
    ∧ ((Func.new "f".data [Ty.Void]).mangle = (Func.new "f".data [Ty.Void]).mangle
      ∧ Func.new "a::b".data [Ty.Int] = Func.new "a::b".data [Ty.Int]
      ∧ (Func.new "a::b".data [Ty.Int]).mangle = (Func.new "a::b".data [Ty.Int]).mangle) :=
  ⟨rfl, rfl, c7_deterministic (Func.new "f".data [Ty.Void]) _ _ _ _ rfl rfl⟩

/-- Claim C8: `Func.new` and `Func.mangle` are total over every name and
parameter list: both are total functions in this embedding, and for every
input (empty names, empty segments, arbitrary characters included) mangling
returns a string, which always starts with `_Z`. -/
theorem c8_total (name : List Char) (params : List Ty) :
    ((Func.new name params).mangle).take 2 = ['_', 'Z'] := by
  cases hsep : containsSep name with
  | false =>
      rw [mangle_unscoped_shape name params hsep]
      rfl
  | true =>
      rw [mangle_nested_shape name params hsep]
      rfl

/-- Claim C9: for every name containing `::` (leading, trailing, or adjacent
separators included), Scope construction keeps every segment of the
keep-empties split — re-joining the stored segments with `::` reconstructs
the name exactly, so no empty segment is dropped — and mangling renders each
empty segment as the single digit `0` with no following text, its block in
the output being `decDigits 0 ++ [] = "0"`; in particular `a::::b` splits as
`["a", "", "b"]` and mangles to `_ZN1a01bE`, `::foo` splits as
`["", "foo"]` and mangles to `_ZN03fooE`, and `foo::` splits as
`["foo", ""]` and mangles to `_ZN3foo0E`. -/
theorem c9_empty_segments (name : List Char) (params : List Ty)
    (h : containsSep name = true) :
    (Scope.new name = Scope.Nested (splitSepAux name [])
      ∧ List.intercalate [':', ':'] (splitSepAux name []) = name)
    ∧ (∀ seg ∈ splitSepAux name [], seg = [] → decDigits (strLen seg) ++ seg = ['0'])
    ∧ (Func.new name params).mangle
        = ['_', 'Z', 'N']
            ++ ((splitSepAux name []).map (fun i => decDigits (strLen i) ++ i)).flatten
            ++ ['E'] ++ params.map tyLetter
    ∧ (Scope.new "a::::b".data = Scope.Nested ["a".data, [], "b".data]
      ∧ (Func.new "a::::b".data []).mangle = "_ZN1a01bE".data)
    ∧ (Scope.new "::foo".data = Scope.Nested [[], "foo".data]
      ∧ (Func.new "::foo".data []).mangle = "_ZN03fooE".data)
    ∧ (Scope.new "foo::".data = Scope.Nested ["foo".data, []]
      ∧ (Func.new "foo::".data []).mangle = "_ZN3foo0E".data) := by
  refine ⟨⟨scope_new_of_sep name h, intercalate_split name⟩, ?_,
    mangle_nested_shape name params h, by decide, by decide, by decide⟩
  intro seg _ hseg
  subst hseg
  decide

theorem c9_empty_segments_witness :
    containsSep "a::::b".data = true
    ∧ ((Scope.new "a::::b".data = Scope.Nested (splitSepAux "a::::b".data [])
        ∧ List.intercalate [':', ':'] (splitSepAux "a::::b".data []) = "a::::b".data)
      ∧ (∀ seg ∈ splitSepAux "a::::b".data [], seg = []
          → decDigits (strLen seg) ++ seg = ['0'])
      ∧ (Func.new "a::::b".data [Ty.Int]).mangle
          = ['_', 'Z', 'N']
              ++ ((splitSepAux "a::::b".data []).map
                    (fun i => decDigits (strLen i) ++ i)).flatten
              ++ ['E'] ++ [Ty.Int].map tyLetter
      ∧ (Scope.new "a::::b".data = Scope.Nested ["a".data, [], "b".data]
        ∧ (Func.new "a::::b".data []).mangle = "_ZN1a01bE".data)
      ∧ (Scope.new "::foo".data = Scope.Nested [[], "foo".data]
        ∧ (Func.new "::foo".data []).mangle = "_ZN03fooE".data)
      ∧ (Scope.new "foo::".data = Scope.Nested ["foo".data, []]
        ∧ (Func.new "foo::".data []).mangle = "_ZN3foo0E".data)) :=
  ⟨by decide, c9_empty_segments "a::::b".data [Ty.Int] (by decide)⟩

/-- Claim C10: the emitted decimal length is the UTF-8 byte length, not the
character count: any name with a multi-byte character has byte length
strictly above its character count (e.g. `é` mangles to `_Z2é`), and the
empty unscoped name produces output beginning `_Z0`. -/
theorem c10_byte_length (name : List Char) (params : List Ty)
    (h : ∃ c ∈ name, 1 < c.utf8Size) :
    name.length < strLen name
    ∧ ((Func.new [] params).mangle).take 3 = "_Z0".data
    ∧ (Func.new "é".data []).mangle = "_Z2é".data := by
  refine ⟨length_lt_strLen name h, ?_, by decide⟩
  rw [mangle_unscoped_shape [] params rfl]
  rfl

theorem c10_byte_length_witness :
    (∃ c ∈ "é".data, 1 < c.utf8Size)
    ∧ (("é".data).length < strLen "é".data
      ∧ ((Func.new [] [Ty.Int]).mangle).take 3 = "_Z0".data
      ∧ (Func.new "é".data []).mangle = "_Z2é".data) :=
  ⟨by decide, c10_byte_length "é".data [Ty.Int] (by decide)⟩
